import Mathlib

/-!
# Verification of the life-nd core (src/sim.rs)

Shallow embedding of the N-dimensional Game-of-Life simulator and proofs
about its coordinate codec, rule-parameter derivation, neighbor enumerator
and step engine.  Machine integers (`u32`, `usize`) are modelled as `Nat`;
where an overflow or an out-of-bounds panic matters it is modelled
explicitly (`Option` for the construction-time `u32` power overflow,
`Outcome.panicked` for `Vec`-indexing panics).
-/

set_option maxHeartbeats 1000000

namespace LifeND

/-- Model of `enum Cell` (src/sim.rs): a single cell in the simulation. -/
inductive Cell
  | Dead
  | Alive
deriving DecidableEq, Repr

/-- Model of `impl From<bool> for Cell`: `true ↦ Alive`. -/
def cellFrom (val : Bool) : Cell :=
  if val then Cell.Alive else Cell.Dead

/-- Model of `enum LifeRules` (src/sim.rs): the rule variants. -/
inductive LifeRules
  | BasicRules
  | PercentageRules
deriving DecidableEq, Repr

/-- Model of `struct LifeSimulator` (src/sim.rs).  The `u32`/`usize` fields
are modelled as `Nat`. -/
structure LifeSimulator where
  cells : List Cell
  dim : Nat
  size : Nat
  min_neighbors : Nat
  min_breed_neighbors : Nat
  max_neighbors : Nat
deriving DecidableEq, Repr

/-- Result of a Rust expression that may panic: `panicked` models an abort
through a panic (for example an out-of-bounds `Vec` index), `value` a normal
result. -/
inductive Outcome (α : Type)
  | panicked
  | value (a : α)
deriving DecidableEq, Repr

/-- Model of `LifeSimulator::new` (src/sim.rs).  `3u32.pow(dimensions)`
overflows `u32` exactly when `3 ^ dimensions > 2 ^ 32 - 1`; with Rust's
overflow checks that is a panic, modelled here as `none`.  The Percentage
thresholds are computed through `f64` in the source; the constants
`0.34375 = 11/32` and `0.40625 = 13/32` are exactly representable in `f64`
and for every `num_neighbors` that fits in `u32` the cast, product, `ceil`
and `as u32` truncation are all exact, so the `f64` computation is modelled
by exact rational arithmetic.  `size.pow(dimensions)` (a `usize`) is modelled
as an exact `Nat` power; the claims using it assume the cell storage fits in
memory, which keeps that power below `usize::MAX`. -/
def new (rules : LifeRules) (dimensions : Nat) (size : Nat) : Option LifeSimulator :=
  if 3 ^ dimensions > 2 ^ 32 - 1 then none else
  let num_neighbors := 3 ^ dimensions - 1
  let min_neighbors :=
    match rules with
    | LifeRules.BasicRules => num_neighbors / 4
    | LifeRules.PercentageRules => num_neighbors / 4
  let min_breed_neighbors :=
    match rules with
    | LifeRules.BasicRules => (num_neighbors + 1) / 3
    | LifeRules.PercentageRules => (⌈(num_neighbors : ℚ) * (11 / 32)⌉).toNat
  let max_neighbors :=
    match rules with
    | LifeRules.BasicRules => (num_neighbors + 1) / 3
    | LifeRules.PercentageRules => (⌊(num_neighbors : ℚ) * (13 / 32)⌋).toNat
  some { cells := List.replicate (size ^ dimensions) Cell.Dead
         dim := dimensions
         size := size
         min_neighbors := min_neighbors
         min_breed_neighbors := min_breed_neighbors
         max_neighbors := max_neighbors }

/-- Accumulating loop of `tagged_coords_to_index`: `d` is the 1-based loop
counter of `(1...dim).zip(coords.iter())`, each step adds
`size.pow(d - 1) * coord`. -/
def ctiAux (size : Nat) : Nat → List Nat → Nat
  | _, [] => 0
  | d, c :: cs => size ^ (d - 1) * c + ctiAux size (d + 1) cs

/-- Model of `tagged_coords_to_index` (src/sim.rs): the zip with `1...dim`
stops after `dim` coordinates, hence the `take`; the source asserts
`coords.len() == dim`, which holds at every call site modelled here.  The
accumulation `index += size.pow(d - 1) * coord` happens in a 64-bit `usize`:
with overflow checks off every wrapping power, product and sum composes to
the exact value modulo `2 ^ 64`, hence the outer `% 2 ^ 64` (with overflow
checks on the first overflowing step would panic instead; in the bounded
domains of the theorems below no step overflows, so both build profiles
agree with the un-wrapped value). -/
def tagged_coords_to_index (size : Nat) (dim : Nat) (coords : List Nat) : Nat :=
  ctiAux size 1 (coords.take dim) % 2 ^ 64

/-- Model of `tagged_index_to_coords` (src/sim.rs): the loop over
`d = dim-1, ..., 0` peels the most significant digit first and inserts it at
the front, so the returned list is least-significant-axis first.  The
coordinates are a `Vec<u32>` and each digit is stored through the truncating
cast `tmp_coord as u32`, modelled by `% 2 ^ 32` (the cast wraps in every
build profile).  The scale `size.pow(d)` is a `usize`; it stays below
`size ^ dim` for `size ≥ 1`, so in the bounded domains of the theorems below
(cell storage below `2 ^ 64`) it never overflows and is modelled exactly.
For `dim = 0` the source would panic on `dim - 1` underflow; every claim
modelled here has `dim ≥ 1`. -/
def tagged_index_to_coords (size : Nat) : Nat → Nat → List Nat
  | 0, _ => []
  | d + 1, index =>
      let tmp_coord_scale := size ^ d
      let tmp_coord := index / tmp_coord_scale
      tagged_index_to_coords size d (index - tmp_coord * tmp_coord_scale) ++
        [tmp_coord % 2 ^ 32]

/-- Model of the public `coords_to_index` method. -/
def LifeSimulator.coords_to_index (sim : LifeSimulator) (coords : List Nat) : Nat :=
  tagged_coords_to_index sim.size sim.dim coords

/-- Model of the public `index_to_coords` method. -/
def LifeSimulator.index_to_coords (sim : LifeSimulator) (index : Nat) : List Nat :=
  tagged_index_to_coords sim.size sim.dim index

/-- Model of `get_cell` (src/sim.rs): `self.cells[index]`; an out-of-bounds
index makes the `Vec` index panic, modelled as `Outcome.panicked`. -/
def LifeSimulator.get_cell (sim : LifeSimulator) (index : Nat) : Outcome Cell :=
  match sim.cells.get? index with
  | some c => Outcome.value c
  | none => Outcome.panicked

/-- Model of a write through the mutable reference returned by `mut_cell`
(src/sim.rs), that is of `*sim.mut_cell(index) = c`.  The indexing
`&mut self.cells[index]` panics on an out-of-bounds index before anything is
written, modelled as `Outcome.panicked`. -/
def LifeSimulator.mut_cell_set (sim : LifeSimulator) (index : Nat) (c : Cell) :
    Outcome LifeSimulator :=
  if index < sim.cells.length then
    Outcome.value { sim with cells := sim.cells.set index c }
  else Outcome.panicked

/-- Model of `randomize_grid` (src/sim.rs), with the thread-local RNG
modelled as an injected stream of booleans, one per cell in iteration
order. -/
def LifeSimulator.randomize_grid_with (sim : LifeSimulator) (rng : Nat → Bool) :
    LifeSimulator :=
  { sim with cells := (List.range sim.cells.length).map (fun i => cellFrom (rng i)) }

/-- One axis of the offset decoding inside `get_neighbor_indices`
(src/sim.rs): the match on `n_d` (`1` → `checked_sub`, `2` → `checked_add`,
`_` → unchanged) followed by the upper-bound check
`n_coords[d] as usize == self.size`.  `none` models the `break 'neighbor`.
The coordinate is a `u32`, so `checked_add(1)` fails exactly at
`u32::MAX = 2 ^ 32 - 1`, modelled by the `c + 1 = 2 ^ 32` test. -/
def offsetAxis (size : Nat) (n_d : Nat) (c : Nat) : Option Nat :=
  match n_d with
  | 1 => if c = 0 then none else if c - 1 = size then none else some (c - 1)
  | 2 =>
      if c + 1 = 2 ^ 32 then none
      else if c + 1 = size then none else some (c + 1)
  | _ => if c = size then none else some c

/-- Inner loop of `get_neighbor_indices` (src/sim.rs) over the axes
`d = dim-1, ..., 0`: extract the base-3 digit of the candidate `n` at axis
`d`, shift that axis, subtract the digit from `n` and continue.  `none`
models `break 'neighbor`; in the source that `break` aborts the whole outer
loop, see `neighborLoop`. -/
def applyOffsets (size : Nat) : Nat → Nat → List Nat → Option (List Nat)
  | 0, _, n_coords => some n_coords
  | d + 1, n, n_coords =>
      let tern_digit := 3 ^ d
      let n_d := n / tern_digit
      match offsetAxis size n_d (n_coords.getD d 0) with
      | none => none
      | some v => applyOffsets size d (n - n_d * tern_digit) (n_coords.set d v)

/-- Outer loop of `get_neighbor_indices` (src/sim.rs) over the candidates
`n, n + 1, ...`, with `rem` candidates remaining.  Because the source uses
`break 'neighbor` (not a labelled continue), one out-of-bounds candidate
abandons all remaining candidates, hence the `[]` in the `none` branch. -/
def neighborLoop (size : Nat) (dim : Nat) (coords : List Nat) : Nat → Nat → List Nat
  | 0, _ => []
  | rem + 1, n =>
      match applyOffsets size dim n coords with
      | none => []
      | some n_coords =>
          tagged_coords_to_index size dim n_coords ::
            neighborLoop size dim coords rem (n + 1)

/-- Model of `get_neighbor_indices` (src/sim.rs): candidates
`n = 1, ..., 3^dim - 1` decoded base 3 over a fresh clone of the cell's
coordinates. -/
def LifeSimulator.get_neighbor_indices (sim : LifeSimulator) (index : Nat) : List Nat :=
  let coords := sim.index_to_coords index
  neighborLoop sim.size sim.dim coords (3 ^ sim.dim - 1) 1

/-- Transition of one cell inside `step` (src/sim.rs): count the alive
neighbors in the prior snapshot, then die / breed / keep in that order. -/
def newCellState (last_state : LifeSimulator) (index : Nat) (cell : Cell) : Cell :=
  let alive_neighbors :=
    (last_state.get_neighbor_indices index).countP
      (fun n_ind => decide (last_state.get_cell n_ind = Outcome.value Cell.Alive))
  if alive_neighbors < last_state.min_neighbors ∨
      alive_neighbors > last_state.max_neighbors then
    Cell.Dead
  else if last_state.min_breed_neighbors ≤ alive_neighbors ∧
      alive_neighbors ≤ last_state.max_neighbors then
    Cell.Alive
  else cell

/-- The `self.cells.iter_mut().enumerate()` loop of `step` (src/sim.rs),
reading only from the prior snapshot `last_state`. -/
def stepCells (last_state : LifeSimulator) : Nat → List Cell → List Cell
  | _, [] => []
  | index, cell :: rest =>
      newCellState last_state index cell :: stepCells last_state (index + 1) rest

/-- Model of `step` (src/sim.rs): clone the prior state, then rewrite every
cell as a function of that snapshot only. -/
def LifeSimulator.step (sim : LifeSimulator) : LifeSimulator :=
  { sim with cells := stepCells sim 0 sim.cells }

/-- Modelled from the spec (§4.4 Neighbor Enumerator), one axis of the
candidate shift, for comparison with the source's `offsetAxis`: an axis that
would move below `0` or reach `size` invalidates only that candidate. -/
def specShiftAxis (size : Nat) (digit : Nat) (c : Nat) : Option Nat :=
  match digit with
  | 1 => if c = 0 then none else some (c - 1)
  | 2 => if c + 1 ≥ size then none else some (c + 1)
  | _ => some c

/-- Modelled from the spec (§4.4 Neighbor Enumerator), for comparison with
the source's `get_neighbor_indices`: every candidate `n` in `[1, 3^dim)` is
decoded into base-3 per-axis shifts, a candidate with an axis leaving
`[0, size)` is discarded individually, and every in-bounds candidate is kept
and converted back to a flat index.  Both the coordinate decomposition
(axis `k` of `index` is `index / size ^ k % size`) and the mixed-radix
re-encoding follow §4.1 in exact arithmetic, independent of the machine
widths of the implementation. -/
def spec_neighbor_indices (size : Nat) (dim : Nat) (index : Nat) : List Nat :=
  ((List.range (3 ^ dim)).drop 1).filterMap (fun n =>
    ((List.range dim).mapM
        (fun k => specShiftAxis size (n / 3 ^ k % 3) (index / size ^ k % size))).map
      (fun coords => ((List.range dim).zip coords).foldl
        (fun acc p => acc + size ^ p.1 * p.2) 0))

/-- The Grid invariant of the spec (§3): the cell storage has length
`size ^ dim` and the thresholds satisfy
`min_neighbors ≤ max_neighbors ≤ 3 ^ dim - 1`. -/
def GridInv (sim : LifeSimulator) : Prop :=
  sim.cells.length = sim.size ^ sim.dim ∧
  sim.min_neighbors ≤ sim.max_neighbors ∧
  sim.max_neighbors ≤ 3 ^ sim.dim - 1

/-- The fields of the spec that are frozen at construction: `dim`, `size` and
the three thresholds agree between two states. -/
def FrozenFieldsEq (a b : LifeSimulator) : Prop :=
  a.dim = b.dim ∧ a.size = b.size ∧ a.min_neighbors = b.min_neighbors ∧
  a.min_breed_neighbors = b.min_breed_neighbors ∧ a.max_neighbors = b.max_neighbors

/-- Concrete fixture: the 1-dimensional, size-5 Basic grid produced by
`new`, with its cells set to the end-to-end scenario of the spec (§8). -/
def exSim : LifeSimulator :=
  { cells := [Cell.Dead, Cell.Alive, Cell.Dead, Cell.Dead, Cell.Dead]
    dim := 1
    size := 5
    min_neighbors := 0
    min_breed_neighbors := 1
    max_neighbors := 1 }

/-- Concrete fixture: the value of `new BasicRules 1 5` (all cells Dead). -/
def exNew : LifeSimulator :=
  { cells := List.replicate 5 Cell.Dead
    dim := 1
    size := 5
    min_neighbors := 0
    min_breed_neighbors := 1
    max_neighbors := 1 }

/-- Concrete fixture: a 2-dimensional size-3 Basic grid (the value of
`new BasicRules 2 3`), whose center cell (index 4) is interior. -/
def exSim2 : LifeSimulator :=
  { cells := List.replicate 9 Cell.Dead
    dim := 2
    size := 3
    min_neighbors := 2
    min_breed_neighbors := 3
    max_neighbors := 3 }

/-!
## Theorems

The claims C1 through C10 are settled below; helper lemmas carry neutral
names and are shared freely, while each claim has exactly one dedicated
theorem (plus a witness or counterexample where required).
-/

/-- C1: the claim states that `get_neighbor_indices` returns every in-bounds
Moore neighbor, individually omitting only the out-of-bounds candidates.  It
fails on the code: `break 'neighbor` aborts the whole outer candidate loop at
the first out-of-bounds candidate, so for the 1-dimensional size-5 grid the
cell at index 0 gets the empty neighbor list, while the spec-described
enumeration (each candidate discarded individually) yields exactly `[1]`. -/
theorem C1_neighbor_enumeration_truncated_by_break :
    (new LifeRules.BasicRules 1 5).map
        (fun g => g.get_neighbor_indices 0) = some [] ∧
    spec_neighbor_indices 5 1 0 = [1] := by
  constructor <;> decide

/-- C2: the claim's end-to-end scenario fails on the code.  Starting from
`[Dead, Alive, Dead, Dead, Dead]` on the Basic 1-dimensional size-5 grid,
one `step` produces `[Dead, Alive, Alive, Dead, Dead]`, not the claimed
`[Alive, Alive, Alive, Dead, Dead]`: cell 0's neighbor list is truncated to
`[]` by the `break 'neighbor` bug, so cell 0 sees 0 alive neighbors and
stays Dead instead of breeding. -/
theorem C2_end_to_end_scenario_diverges :
    (new LifeRules.BasicRules 1 5).map
        (fun g => (LifeSimulator.step
          { g with cells := [Cell.Dead, Cell.Alive, Cell.Dead, Cell.Dead, Cell.Dead] }).cells) =
      some [Cell.Dead, Cell.Alive, Cell.Alive, Cell.Dead, Cell.Dead] ∧
    [Cell.Dead, Cell.Alive, Cell.Alive, Cell.Dead, Cell.Dead] ≠
      [Cell.Alive, Cell.Alive, Cell.Alive, Cell.Dead, Cell.Dead] := by
  constructor <;> decide

/-- C8 counterexample: at `dimensions = 21`, `size = 1` the grid needs only
`1 ^ 21 = 1` cell — well within any host's memory — yet construction panics
(modelled as `none`), because `3u32.pow(21)` overflows `u32`. -/
theorem C8_counterexample_dim21_overflow :
    new LifeRules.BasicRules 21 1 = none ∧ (1 : Nat) ^ 21 = 1 := by
  constructor <;> decide

/-- C9 counterexample: degenerate arguments are not rejected.  `new` with
`dim = 0` silently returns a singular grid with one cell, and `new` with
`size = 0` silently returns a zero-length grid; no error is raised. -/
theorem C9_counterexample_degenerate_accepted :
    (new LifeRules.BasicRules 0 5).map (fun g => g.cells.length) = some 1 ∧
    (new LifeRules.BasicRules 3 0).map (fun g => g.cells.length) = some 0 := by
  constructor <;> decide

/-- C10 counterexample: an out-of-bounds caller-supplied index does not
produce a result/error value — `get_cell` and `mut_cell` index the `Vec`
directly, which panics (an abort, modelled as `Outcome.panicked`): here on
the size-5 1-dimensional grid at index 25. -/
theorem C10_counterexample_out_of_bounds_panics :
    (new LifeRules.BasicRules 1 5).map (fun g => g.get_cell 25) =
      some Outcome.panicked ∧
    (new LifeRules.BasicRules 1 5).map (fun g => g.mut_cell_set 25 Cell.Alive) =
      some Outcome.panicked := by
  constructor <;> decide

/-- Shifting the loop counter of `ctiAux` by one multiplies the value by
`size`: each coordinate's weight grows by one power. -/
theorem ctiAux_shift (size : Nat) :
    ∀ (cs : List Nat) (d : Nat), ctiAux size (d + 2) cs = size * ctiAux size (d + 1) cs := by
  intro cs
  induction cs with
  | nil => intro d; simp [ctiAux]
  | cons c cs ih =>
      intro d
      show size ^ (d + 1) * c + ctiAux size (d + 2 + 1) cs =
        size * (size ^ d * c + ctiAux size (d + 1 + 1) cs)
      rw [show d + 2 + 1 = d + 1 + 2 by omega, ih (d + 1),
        show d + 1 + 1 = d + 2 by omega]
      ring

/-- Horner unfolding of the coordinate value. -/
theorem ctiAux_one_cons (size c : Nat) (cs : List Nat) :
    ctiAux size 1 (c :: cs) = c + size * ctiAux size 1 cs := by
  show size ^ 0 * c + ctiAux size (1 + 1) cs = c + size * ctiAux size 1 cs
  have h := ctiAux_shift size cs 0
  rw [show (0 : Nat) + 2 = 1 + 1 by rfl, show (0 : Nat) + 1 = 1 by rfl] at h
  rw [h]
  ring

/-- Appending a most significant coordinate adds its weighted value. -/
theorem ctiAux_append_last (size : Nat) :
    ∀ (cs : List Nat) (e c : Nat),
      ctiAux size (e + 1) (cs ++ [c]) = ctiAux size (e + 1) cs + size ^ (e + cs.length) * c := by
  intro cs
  induction cs with
  | nil => intro e c; simp [ctiAux]
  | cons x cs ih =>
      intro e c
      rw [List.cons_append]
      show size ^ (e + 1 - 1) * x + ctiAux size (e + 1 + 1) (cs ++ [c]) =
        size ^ (e + 1 - 1) * x + ctiAux size (e + 1 + 1) cs +
          size ^ (e + (x :: cs).length) * c
      rw [ih (e + 1) c, List.length_cons,
        show e + 1 + cs.length = e + (cs.length + 1) by omega]
      omega

/-- A coordinate vector with every component below `size` has value below
`size ^ length`. -/
theorem ctiAux_one_lt (size : Nat) :
    ∀ cs : List Nat, (∀ x ∈ cs, x < size) → ctiAux size 1 cs < size ^ cs.length := by
  intro cs
  induction cs with
  | nil => intro _; simp [ctiAux]
  | cons c cs ih =>
      intro h
      have hc : c < size := h c (List.mem_cons_self _ _)
      have hv : ctiAux size 1 cs < size ^ cs.length :=
        ih (fun x hx => h x (List.mem_cons_of_mem _ hx))
      rw [ctiAux_one_cons, List.length_cons, pow_succ]
      calc c + size * ctiAux size 1 cs
          < size + size * ctiAux size 1 cs := by omega
        _ = size * (ctiAux size 1 cs + 1) := by ring
        _ ≤ size * size ^ cs.length := Nat.mul_le_mul_left _ hv
        _ = size ^ cs.length * size := by ring

/-- The decoded coordinate list always has length `dim`. -/
theorem tagged_index_to_coords_length (size : Nat) :
    ∀ (d index : Nat), (tagged_index_to_coords size d index).length = d := by
  intro d
  induction d with
  | zero => intro _; rfl
  | succ d ih => intro index; simp [tagged_index_to_coords, ih]

/-- Every decoded coordinate of a valid index is below `size`. -/
theorem tagged_index_to_coords_mem_lt (size : Nat) :
    ∀ (d index : Nat), index < size ^ d →
      ∀ x ∈ tagged_index_to_coords size d index, x < size := by
  intro d
  induction d with
  | zero => intro index _ x hx; simp [tagged_index_to_coords] at hx
  | succ d ih =>
      intro index hidx x hx
      have hscale : 0 < size ^ d := by
        rcases Nat.eq_zero_or_pos (size ^ d) with h | h
        · rw [pow_succ, h] at hidx; omega
        · exact h
      simp only [tagged_index_to_coords, List.mem_append, List.mem_singleton] at hx
      rcases hx with hx | rfl
      · refine ih (index - index / size ^ d * size ^ d) ?_ x hx
        have h1 := Nat.mod_lt index hscale
        have h2 := Nat.div_add_mod index (size ^ d)
        have h3 := Nat.mul_comm (size ^ d) (index / size ^ d)
        omega
      · rw [pow_succ] at hidx
        have h2 : size ^ d * size = size * size ^ d := Nat.mul_comm _ _
        have hdiv : index / size ^ d < size :=
          (Nat.div_lt_iff_lt_mul hscale).mpr (by omega)
        have hm := Nat.mod_le (index / size ^ d) (2 ^ 32)
        omega

/-- Round trip on the raw loops: re-encoding the decoded coordinates of a
valid index recovers the index, provided `size` fits the `u32` coordinate
storage (so no digit is truncated by the `as u32` cast). -/
theorem ctiAux_tagged_index_to_coords (size : Nat) (hs32 : size ≤ 2 ^ 32) :
    ∀ (d index : Nat), index < size ^ d →
      ctiAux size 1 (tagged_index_to_coords size d index) = index := by
  intro d
  induction d with
  | zero =>
      intro index hidx
      have : index = 0 := by simpa using hidx
      simp [this, tagged_index_to_coords, ctiAux]
  | succ d ih =>
      intro index hidx
      have hscale : 0 < size ^ d := by
        rcases Nat.eq_zero_or_pos (size ^ d) with h | h
        · rw [pow_succ, h] at hidx; omega
        · exact h
      have hmod : index - index / size ^ d * size ^ d = index % size ^ d := by
        calc index - index / size ^ d * size ^ d
            = size ^ d * (index / size ^ d) + index % size ^ d -
                index / size ^ d * size ^ d := by rw [Nat.div_add_mod]
          _ = index / size ^ d * size ^ d + index % size ^ d -
                index / size ^ d * size ^ d := by rw [Nat.mul_comm]
          _ = index % size ^ d := Nat.add_sub_cancel_left _ _
      have hrlt : index % size ^ d < size ^ d := Nat.mod_lt index hscale
      have hdivlt : index / size ^ d < size := by
        rw [Nat.div_lt_iff_lt_mul hscale]
        have h2 : size ^ d * size = size * size ^ d := Nat.mul_comm _ _
        rw [pow_succ] at hidx
        omega
      have hdig : index / size ^ d % 2 ^ 32 = index / size ^ d :=
        Nat.mod_eq_of_lt (by omega)
      simp only [tagged_index_to_coords]
      rw [hdig]
      have hap := ctiAux_append_last size
        (tagged_index_to_coords size d (index - index / size ^ d * size ^ d)) 0
        (index / size ^ d)
      simp only [Nat.zero_add] at hap
      rw [hap, hmod, tagged_index_to_coords_length, ih (index % size ^ d) hrlt]
      have h2 := Nat.div_add_mod index (size ^ d)
      rw [Nat.add_comm]
      exact h2

/-- Round trip on the raw loops, other direction: decoding the encoded value
of a well-formed coordinate vector recovers the vector, provided `size` fits
the `u32` coordinate storage. -/
theorem tagged_index_to_coords_ctiAux (size : Nat) (hs32 : size ≤ 2 ^ 32) :
    ∀ (d : Nat) (cs : List Nat), cs.length = d → (∀ x ∈ cs, x < size) →
      tagged_index_to_coords size d (ctiAux size 1 cs) = cs := by
  intro d
  induction d with
  | zero =>
      intro cs hlen _
      rw [List.length_eq_zero] at hlen
      simp [hlen, tagged_index_to_coords]
  | succ d ih =>
      intro cs hlen hmem
      rcases List.eq_nil_or_concat cs with rfl | ⟨ys, c, rfl⟩
      · simp at hlen
      · simp only [List.concat_eq_append] at hlen hmem ⊢
        have hys : ys.length = d := by
          simpa using hlen
        have hysmem : ∀ x ∈ ys, x < size := fun x hx =>
          hmem x (List.mem_append.mpr (Or.inl hx))
        have hc : c < size :=
          hmem c (List.mem_append.mpr (Or.inr (List.mem_singleton_self _)))
        have hv : ctiAux size 1 ys < size ^ d := hys ▸ ctiAux_one_lt size ys hysmem
        have hscale : 0 < size ^ d := by omega
        have hap := ctiAux_append_last size ys 0 c
        simp only [Nat.zero_add] at hap
        rw [hap, hys]
        have hdivq : (ctiAux size 1 ys + size ^ d * c) / size ^ d = c := by
          rw [Nat.add_mul_div_left _ _ hscale, Nat.div_eq_of_lt hv]
          omega
        simp only [tagged_index_to_coords, hdivq]
        rw [show ctiAux size 1 ys + size ^ d * c - c * size ^ d = ctiAux size 1 ys by
          rw [Nat.mul_comm]; omega]
        rw [ih ys hys hysmem, Nat.mod_eq_of_lt (by omega : c < 2 ^ 32)]

/-- C4 counterexample: at `size = 2 ^ 33`, `dim = 1` the valid index
`2 ^ 32` decodes — through the truncating `tmp_coord as u32` cast — to the
`u32` coordinate `0`, so re-encoding yields `0`, not `2 ^ 32`: the round
trip quantified over every `size ≥ 1` is false of the code (a `2 ^ 33`-cell
1-dimensional grid fits comfortably in addressable memory). -/
theorem C4_counterexample_u32_truncation :
    tagged_coords_to_index (2 ^ 33) 1 (tagged_index_to_coords (2 ^ 33) 1 (2 ^ 32)) = 0 ∧
    tagged_index_to_coords (2 ^ 33) 1 (2 ^ 32) = [0] ∧
    (2 ^ 32 : Nat) < (2 ^ 33 : Nat) ^ 1 ∧ (0 : Nat) ≠ 2 ^ 32 := by
  refine ⟨?_, ?_, ?_, ?_⟩ <;> decide

/-- C4 (amended): the coordinate codec round-trips in both directions for
every grid geometry with `dim ≥ 1`, `size ≥ 1` whose coordinates fit the
`u32` digit storage (`size ≤ 2 ^ 32`) and whose flat indices fit `usize`
(`size ^ dim ≤ 2 ^ 64 - 1`): re-encoding the decoded coordinates of any
valid index gives the index back, and decoding the encoded value of any
well-formed coordinate vector gives the vector back.  The two machine-width
bounds are exactly what the truncation counterexample forces. -/
theorem C4_codec_round_trip_within_machine_widths (size dim : Nat)
    (hs : 1 ≤ size) (hd : 1 ≤ dim) (hs32 : size ≤ 2 ^ 32)
    (hfits : size ^ dim ≤ 2 ^ 64 - 1) :
    (∀ index, index < size ^ dim →
      tagged_coords_to_index size dim (tagged_index_to_coords size dim index) = index) ∧
    (∀ coords : List Nat, coords.length = dim → (∀ x ∈ coords, x < size) →
      tagged_index_to_coords size dim (tagged_coords_to_index size dim coords) = coords) := by
  have htake : ∀ l : List Nat, l.length = dim → l.take dim = l := by
    intro l h
    rw [← h]
    exact List.take_length l
  constructor
  · intro index hidx
    rw [tagged_coords_to_index,
      htake _ (tagged_index_to_coords_length size dim index),
      ctiAux_tagged_index_to_coords size hs32 dim index hidx]
    exact Nat.mod_eq_of_lt (by omega)
  · intro coords hlen hmem
    have hv : ctiAux size 1 coords < size ^ dim :=
      hlen ▸ ctiAux_one_lt size coords hmem
    rw [tagged_coords_to_index, htake _ hlen,
      Nat.mod_eq_of_lt (by omega : ctiAux size 1 coords < 2 ^ 64)]
    exact tagged_index_to_coords_ctiAux size hs32 dim coords hlen hmem

/-- C4 witness: both round trips at `size = 3`, `dim = 2`, index `7` and
coordinates `[2, 1]`. -/
theorem C4_codec_round_trip_within_machine_widths_witness :
    1 ≤ 3 ∧ 1 ≤ 2 ∧ 3 ≤ 2 ^ 32 ∧ 3 ^ 2 ≤ 2 ^ 64 - 1 ∧ 7 < 3 ^ 2 ∧
    tagged_coords_to_index 3 2 (tagged_index_to_coords 3 2 7) = 7 ∧
    tagged_index_to_coords 3 2 (tagged_coords_to_index 3 2 [2, 1]) = [2, 1] :=
  ⟨by decide, by decide, by decide, by decide, by decide,
   (C4_codec_round_trip_within_machine_widths 3 2 (by decide) (by decide)
     (by decide) (by decide)).1 7 (by decide),
   (C4_codec_round_trip_within_machine_widths 3 2 (by decide) (by decide)
     (by decide) (by decide)).2 [2, 1] (by decide) (by decide)⟩

/-- The step loop preserves the number of cells. -/
theorem stepCells_length (last_state : LifeSimulator) :
    ∀ (k : Nat) (cs : List Cell), (stepCells last_state k cs).length = cs.length := by
  intro k cs
  induction cs generalizing k with
  | nil => rfl
  | cons c rest ih => simp [stepCells, ih]

/-- Each output cell of the step loop is the transition of the input cell at
the same position, with the enumeration offset added to the position. -/
theorem stepCells_getD (last_state : LifeSimulator) :
    ∀ (cs : List Cell) (k i : Nat), i < cs.length →
      (stepCells last_state k cs).getD i Cell.Dead =
        newCellState last_state (k + i) (cs.getD i Cell.Dead) := by
  intro cs
  induction cs with
  | nil => intro k i h; simp at h
  | cons c rest ih =>
      intro k i h
      cases i with
      | zero => rfl
      | succ i =>
          have hi : i < rest.length := by simpa using h
          show (stepCells last_state (k + 1) rest).getD i Cell.Dead = _
          rw [ih (k + 1) i hi, show k + 1 + i = k + (i + 1) by omega]
          rfl

/-- C3: one `step` writes, at every valid cell position `i`, exactly the
three-way rule of the spec evaluated against the prior snapshot: `Dead` when
the alive-neighbor count is below `min_neighbors` or above `max_neighbors`,
else `Alive` when the count lies in `[min_breed_neighbors, max_neighbors]`,
else the prior cell unchanged — where the count is taken over the indices the
Neighbor Enumerator returns for `i`, read from the prior snapshot, so no cell
ever sees another cell's already-updated state. -/
theorem C3_step_transition_rule (sim : LifeSimulator) (i : Nat)
    (hi : i < sim.cells.length) :
    sim.step.cells.getD i Cell.Dead =
      (let alive_neighbors :=
        (sim.get_neighbor_indices i).countP
          (fun n_ind => decide (sim.get_cell n_ind = Outcome.value Cell.Alive))
       if alive_neighbors < sim.min_neighbors ∨
           alive_neighbors > sim.max_neighbors then Cell.Dead
       else if sim.min_breed_neighbors ≤ alive_neighbors ∧
           alive_neighbors ≤ sim.max_neighbors then Cell.Alive
       else sim.cells.getD i Cell.Dead) := by
  show (stepCells sim 0 sim.cells).getD i Cell.Dead = _
  rw [stepCells_getD sim sim.cells 0 i hi, Nat.zero_add]
  rfl

/-- C3 witness: the rule equation instantiated at the scenario grid and
cell 0. -/
theorem C3_step_transition_rule_witness :
    0 < exSim.cells.length ∧
    exSim.step.cells.getD 0 Cell.Dead =
      (let alive_neighbors :=
        (exSim.get_neighbor_indices 0).countP
          (fun n_ind => decide (exSim.get_cell n_ind = Outcome.value Cell.Alive))
       if alive_neighbors < exSim.min_neighbors ∨
           alive_neighbors > exSim.max_neighbors then Cell.Dead
       else if exSim.min_breed_neighbors ≤ alive_neighbors ∧
           alive_neighbors ≤ exSim.max_neighbors then Cell.Alive
       else exSim.cells.getD 0 Cell.Dead) :=
  ⟨by decide, C3_step_transition_rule exSim 0 (by decide)⟩

/-- The exact value of the Percentage breed threshold: the `f64` expression
`((n as f64) * 0.34375).ceil() as u32` equals `(11 * n + 31) / 32` in `Nat`
arithmetic. -/
theorem percent_breed_eq (n : Nat) :
    (⌈(n : ℚ) * (11 / 32)⌉).toNat = (11 * n + 31) / 32 := by
  have hdm := Nat.div_add_mod (11 * n + 31) 32
  have hml : (11 * n + 31) % 32 < 32 := Nat.mod_lt _ (by norm_num)
  have h1 : 32 * ((11 * n + 31) / 32) ≤ 11 * n + 31 := by omega
  have h2 : 11 * n ≤ 32 * ((11 * n + 31) / 32) := by omega
  have h1' : (32 : ℚ) * (((11 * n + 31) / 32 : Nat) : ℚ) ≤ 11 * (n : ℚ) + 31 := by
    exact_mod_cast h1
  have h2' : (11 : ℚ) * (n : ℚ) ≤ 32 * (((11 * n + 31) / 32 : Nat) : ℚ) := by
    exact_mod_cast h2
  have hceil : ⌈(n : ℚ) * (11 / 32)⌉ = (((11 * n + 31) / 32 : Nat) : ℤ) := by
    rw [Int.ceil_eq_iff, Int.cast_natCast]
    constructor
    · linarith
    · linarith
  rw [hceil, Int.toNat_ofNat]

/-- The exact value of the Percentage max threshold: the `f64` expression
`((n as f64) * 0.40625) as u32` equals `(13 * n) / 32` in `Nat`
arithmetic. -/
theorem percent_max_eq (n : Nat) :
    (⌊(n : ℚ) * (13 / 32)⌋).toNat = 13 * n / 32 := by
  have hdm := Nat.div_add_mod (13 * n) 32
  have hml : (13 * n) % 32 < 32 := Nat.mod_lt _ (by norm_num)
  have h1 : 32 * (13 * n / 32) ≤ 13 * n := by omega
  have h2 : 13 * n < 32 * (13 * n / 32) + 32 := by omega
  have h1' : (32 : ℚ) * ((13 * n / 32 : Nat) : ℚ) ≤ 13 * (n : ℚ) := by
    exact_mod_cast h1
  have h2' : (13 : ℚ) * (n : ℚ) < 32 * ((13 * n / 32 : Nat) : ℚ) + 32 := by
    exact_mod_cast h2
  have hfloor : ⌊(n : ℚ) * (13 / 32)⌋ = ((13 * n / 32 : Nat) : ℤ) := by
    rw [Int.floor_eq_iff, Int.cast_natCast]
    constructor
    · linarith
    · linarith
  rw [hfloor, Int.toNat_ofNat]

/-- Closed form of `new` when the `u32` power does not overflow. -/
theorem new_eq (rules : LifeRules) (dimensions size : Nat)
    (h : 3 ^ dimensions ≤ 2 ^ 32 - 1) :
    new rules dimensions size = some
      { cells := List.replicate (size ^ dimensions) Cell.Dead
        dim := dimensions
        size := size
        min_neighbors := (3 ^ dimensions - 1) / 4
        min_breed_neighbors :=
          match rules with
          | LifeRules.BasicRules => (3 ^ dimensions - 1 + 1) / 3
          | LifeRules.PercentageRules =>
              (⌈((3 ^ dimensions - 1 : Nat) : ℚ) * (11 / 32)⌉).toNat
        max_neighbors :=
          match rules with
          | LifeRules.BasicRules => (3 ^ dimensions - 1 + 1) / 3
          | LifeRules.PercentageRules =>
              (⌊((3 ^ dimensions - 1 : Nat) : ℚ) * (13 / 32)⌋).toNat } := by
  have hguard : ¬ (3 ^ dimensions > 2 ^ 32 - 1) := by omega
  cases rules <;> simp [new, hguard] <;> omega

/-- C5: for every dimension whose neighbor count fits in `u32`, construction
derives the thresholds by the exact floor/ceil formulas of the spec —
`min_neighbors = ⌊n/4⌋` for both variants, `min_breed_neighbors =
max_neighbors = ⌊(n+1)/3⌋` for Basic, and `min_breed_neighbors =
⌈0.34375·n⌉ = (11n+31)/32`, `max_neighbors = ⌊0.40625·n⌋ = 13n/32` for
Percentage (`n = 3^dim - 1`). -/
theorem C5_threshold_derivation (rules : LifeRules) (dimensions size : Nat)
    (hd : 1 ≤ dimensions) (hrep : 3 ^ dimensions ≤ 2 ^ 32 - 1) :
    (new rules dimensions size).map
        (fun g => (g.min_neighbors, g.min_breed_neighbors, g.max_neighbors)) =
      some ((3 ^ dimensions - 1) / 4,
        (match rules with
          | LifeRules.BasicRules => (3 ^ dimensions - 1 + 1) / 3
          | LifeRules.PercentageRules => (11 * (3 ^ dimensions - 1) + 31) / 32),
        (match rules with
          | LifeRules.BasicRules => (3 ^ dimensions - 1 + 1) / 3
          | LifeRules.PercentageRules => 13 * (3 ^ dimensions - 1) / 32)) := by
  rw [new_eq rules dimensions size hrep, Option.map_some']
  cases rules with
  | BasicRules => rfl
  | PercentageRules =>
      show some (_, (⌈((3 ^ dimensions - 1 : Nat) : ℚ) * (11 / 32)⌉).toNat,
        (⌊((3 ^ dimensions - 1 : Nat) : ℚ) * (13 / 32)⌋).toNat) = _
      rw [percent_breed_eq, percent_max_eq]

/-- C5 witness: at `dim = 2` (so `n = 8`) both variants derive the
thresholds `(2, 3, 3)`. -/
theorem C5_threshold_derivation_witness :
    (new LifeRules.BasicRules 2 3).map
        (fun g => (g.min_neighbors, g.min_breed_neighbors, g.max_neighbors)) =
      some (2, 3, 3) ∧
    (new LifeRules.PercentageRules 2 3).map
        (fun g => (g.min_neighbors, g.min_breed_neighbors, g.max_neighbors)) =
      some (2, 3, 3) := by
  constructor
  · have h := C5_threshold_derivation LifeRules.BasicRules 2 3 (by decide) (by norm_num)
    simpa using h
  · have h := C5_threshold_derivation LifeRules.PercentageRules 2 3 (by decide) (by norm_num)
    simpa using h

/-- C7: a constructed grid satisfies the Grid invariant — `size ^ dim` cells
and `min_neighbors ≤ max_neighbors ≤ 3 ^ dim - 1` — and every operation
preserves it: `step`, cell writes through `mut_cell` and `randomize_grid`
keep the cell count and never change `dim`, `size` or the three
thresholds. -/
theorem C7_construction_invariants (rules : LifeRules) (dimensions size : Nat)
    (hd : 1 ≤ dimensions) (hs : 1 ≤ size) (g : LifeSimulator)
    (hg : new rules dimensions size = some g) :
    GridInv g ∧
    (∀ sim : LifeSimulator, GridInv sim →
      (GridInv sim.step ∧ FrozenFieldsEq sim.step sim) ∧
      (∀ index c sim2, sim.mut_cell_set index c = Outcome.value sim2 →
        GridInv sim2 ∧ FrozenFieldsEq sim2 sim) ∧
      (∀ rng, GridInv (sim.randomize_grid_with rng) ∧
        FrozenFieldsEq (sim.randomize_grid_with rng) sim)) := by
  constructor
  · have hrep : 3 ^ dimensions ≤ 2 ^ 32 - 1 := by
      by_contra hcon
      have hnone : new rules dimensions size = none := by
        unfold new
        rw [if_pos (by omega)]
      rw [hnone] at hg
      exact Option.noConfusion hg
    rw [new_eq rules dimensions size hrep] at hg
    replace hg := Option.some.inj hg
    subst hg
    have hN : 0 < 3 ^ dimensions := pow_pos (by norm_num) dimensions
    refine ⟨by simp, ?_, ?_⟩
    · cases rules
      · show (3 ^ dimensions - 1) / 4 ≤ (3 ^ dimensions - 1 + 1) / 3
        omega
      · show (3 ^ dimensions - 1) / 4 ≤
          (⌊((3 ^ dimensions - 1 : Nat) : ℚ) * (13 / 32)⌋).toNat
        rw [percent_max_eq]
        omega
    · cases rules
      · show (3 ^ dimensions - 1 + 1) / 3 ≤ 3 ^ dimensions - 1
        omega
      · show (⌊((3 ^ dimensions - 1 : Nat) : ℚ) * (13 / 32)⌋).toNat ≤
          3 ^ dimensions - 1
        rw [percent_max_eq]
        omega
  · intro sim hsim
    obtain ⟨hlen, hmin, hmax⟩ := hsim
    refine ⟨⟨⟨?_, hmin, hmax⟩, rfl, rfl, rfl, rfl, rfl⟩, ?_, ?_⟩
    · show (stepCells sim 0 sim.cells).length = sim.size ^ sim.dim
      rw [stepCells_length]
      exact hlen
    · intro index c sim2 h
      by_cases hidx : index < sim.cells.length
      · simp only [LifeSimulator.mut_cell_set, if_pos hidx] at h
        injection h with h'
        subst h'
        refine ⟨⟨?_, hmin, hmax⟩, rfl, rfl, rfl, rfl, rfl⟩
        show (sim.cells.set index c).length = sim.size ^ sim.dim
        rw [List.length_set]
        exact hlen
      · simp only [LifeSimulator.mut_cell_set, if_neg hidx] at h
        exact Outcome.noConfusion h
    · intro rng
      refine ⟨⟨?_, hmin, hmax⟩, rfl, rfl, rfl, rfl, rfl⟩
      show ((List.range sim.cells.length).map fun i => cellFrom (rng i)).length =
        sim.size ^ sim.dim
      rw [List.length_map, List.length_range]
      exact hlen

/-- C7 witness: the invariants applied to the concrete grid
`new BasicRules 1 5 = some exNew`. -/
theorem C7_construction_invariants_witness :
    new LifeRules.BasicRules 1 5 = some exNew ∧
    (GridInv exNew ∧
      (∀ sim : LifeSimulator, GridInv sim →
        (GridInv sim.step ∧ FrozenFieldsEq sim.step sim) ∧
        (∀ index c sim2, sim.mut_cell_set index c = Outcome.value sim2 →
          GridInv sim2 ∧ FrozenFieldsEq sim2 sim) ∧
        (∀ rng, GridInv (sim.randomize_grid_with rng) ∧
          FrozenFieldsEq (sim.randomize_grid_with rng) sim))) :=
  ⟨by decide,
   C7_construction_invariants LifeRules.BasicRules 1 5 (by decide) (by decide)
     exNew (by decide)⟩

/-- C8 (amended): for every `dimensions ≥ 1` and `size ≥ 1` such that
`3 ^ dimensions` still fits in `u32` (and the `size ^ dimensions` cells fit
in memory), construction succeeds and returns a grid of `size ^ dimensions`
cells, all Dead.  The extra `u32` bound is forced by the counterexample: at
`dimensions = 21` the threshold computation overflows `u32` and panics even
though the single cell of a `size = 1` grid fits in memory. -/
theorem C8_construction_succeeds_within_u32 (rules : LifeRules)
    (dimensions size : Nat) (hd : 1 ≤ dimensions) (hs : 1 ≤ size)
    (hrep : 3 ^ dimensions ≤ 2 ^ 32 - 1) :
    ∃ g, new rules dimensions size = some g ∧
      g.cells = List.replicate (size ^ dimensions) Cell.Dead ∧
      g.dim = dimensions ∧ g.size = size :=
  ⟨_, new_eq rules dimensions size hrep, rfl, rfl, rfl⟩

/-- C8 witness: construction at `dimensions = 2`, `size = 3`. -/
theorem C8_construction_succeeds_within_u32_witness :
    1 ≤ 2 ∧ 1 ≤ 3 ∧ 3 ^ 2 ≤ 2 ^ 32 - 1 ∧
    ∃ g, new LifeRules.BasicRules 2 3 = some g ∧
      g.cells = List.replicate (3 ^ 2) Cell.Dead ∧ g.dim = 2 ∧ g.size = 3 :=
  ⟨by decide, by decide, by decide,
   C8_construction_succeeds_within_u32 LifeRules.BasicRules 2 3 (by decide)
     (by decide) (by decide)⟩

/-- C9 (amended): degenerate arguments are accepted, not rejected — `new`
with `dim = 0` silently returns a singular grid with `size ^ 0 = 1` cell,
and `new` with `size = 0` (and a `dim ≥ 1` whose power fits in `u32`)
silently returns a zero-length grid; no error value exists in the
constructor's signature. -/
theorem C9_degenerate_construction_accepted (rules : LifeRules)
    (size dimensions : Nat) (hd : 1 ≤ dimensions)
    (hrep : 3 ^ dimensions ≤ 2 ^ 32 - 1) :
    (new rules 0 size).map (fun g => g.cells.length) = some 1 ∧
    (new rules dimensions 0).map (fun g => g.cells.length) = some 0 := by
  constructor
  · rw [new_eq rules 0 size (by norm_num), Option.map_some']
    simp
  · rw [new_eq rules dimensions 0 hrep, Option.map_some']
    simp only [Option.some.injEq, List.length_replicate]
    exact zero_pow (by omega)

/-- C9 witness: the amended behavior at `dim = 0, size = 7` and
`dim = 3, size = 0`. -/
theorem C9_degenerate_construction_accepted_witness :
    1 ≤ 3 ∧ 3 ^ 3 ≤ 2 ^ 32 - 1 ∧
    (new LifeRules.BasicRules 0 7).map (fun g => g.cells.length) = some 1 ∧
    (new LifeRules.BasicRules 3 0).map (fun g => g.cells.length) = some 0 :=
  ⟨by decide, by decide,
   (C9_degenerate_construction_accepted LifeRules.BasicRules 7 3 (by decide)
     (by decide)).1,
   (C9_degenerate_construction_accepted LifeRules.BasicRules 7 3 (by decide)
     (by decide)).2⟩

/-- C10 (amended): on a grid satisfying the cell-count invariant, `get_cell`
and writes through `mut_cell` succeed exactly for `index < size ^ dim`
(leaving every other field untouched); for `index ≥ size ^ dim` they panic —
an abort raised by the `Vec` indexing, not an error value surfaced to the
caller (the panic happens before any write, so no state is modified). -/
theorem C10_cell_access_contract (sim : LifeSimulator) (index : Nat) (c : Cell)
    (hlen : sim.cells.length = sim.size ^ sim.dim) :
    (index < sim.size ^ sim.dim →
      sim.get_cell index = Outcome.value (sim.cells.getD index Cell.Dead) ∧
      sim.mut_cell_set index c =
        Outcome.value { sim with cells := sim.cells.set index c }) ∧
    (sim.size ^ sim.dim ≤ index →
      sim.get_cell index = Outcome.panicked ∧
      sim.mut_cell_set index c = Outcome.panicked) := by
  constructor
  · intro hidx
    have hl : index < sim.cells.length := by omega
    constructor
    · simp only [LifeSimulator.get_cell, List.get?_eq_get hl,
        List.getD_eq_get sim.cells Cell.Dead hl]
    · simp only [LifeSimulator.mut_cell_set, if_pos hl]
  · intro hidx
    have hl : ¬ index < sim.cells.length := by omega
    constructor
    · simp only [LifeSimulator.get_cell, List.get?_eq_none.mpr (by omega :
        sim.cells.length ≤ index)]
    · simp only [LifeSimulator.mut_cell_set, if_neg hl]

/-- C10 witness: the access contract on the scenario grid at index 2. -/
theorem C10_cell_access_contract_witness :
    exSim.cells.length = exSim.size ^ exSim.dim ∧
    ((2 < exSim.size ^ exSim.dim →
      exSim.get_cell 2 = Outcome.value (exSim.cells.getD 2 Cell.Dead) ∧
      exSim.mut_cell_set 2 Cell.Alive =
        Outcome.value { exSim with cells := exSim.cells.set 2 Cell.Alive }) ∧
     (exSim.size ^ exSim.dim ≤ 2 →
      exSim.get_cell 2 = Outcome.panicked ∧
      exSim.mut_cell_set 2 Cell.Alive = Outcome.panicked)) :=
  ⟨by decide, C10_cell_access_contract exSim 2 Cell.Alive (by decide)⟩

/-- Subtracting the rounded-down multiple leaves the remainder. -/
theorem sub_div_mul_eq_mod (n m : Nat) : n - n / m * m = n % m := by
  calc n - n / m * m = m * (n / m) + n % m - n / m * m := by rw [Nat.div_add_mod]
    _ = n / m * m + n % m - n / m * m := by rw [Nat.mul_comm]
    _ = n % m := Nat.add_sub_cancel_left _ _

/-- Reading `getD` away from the written position. -/
theorem getD_set_ne (l : List Nat) (i j v d0 : Nat) (h : i ≠ j) :
    (l.set i v).getD j d0 = l.getD j d0 := by
  rw [List.getD_eq_getD_get?, List.getD_eq_getD_get?, List.get?_set_ne _ _ h]

/-- Reading `getD` at the written position. -/
theorem getD_set_eq (l : List Nat) (i v d0 : Nat) (h : i < l.length) :
    (l.set i v).getD i d0 = v := by
  rw [List.getD_eq_getD_get?, List.get?_set_eq_of_lt _ h, Option.getD_some]

/-- A positionwise bound gives a memberwise bound. -/
theorem mem_lt_of_getD_lt (l : List Nat) (size : Nat)
    (h : ∀ k, k < l.length → l.getD k 0 < size) : ∀ x ∈ l, x < size := by
  intro x hx
  obtain ⟨⟨k, hk⟩, rfl⟩ := List.mem_iff_get.mp hx
  have hkk := h k hk
  rw [List.getD_eq_get l 0 hk] at hkk
  exact hkk

/-- A memberwise bound gives a positionwise bound. -/
theorem getD_lt_of_mem_lt (l : List Nat) (size k : Nat)
    (h : ∀ x ∈ l, x < size) (hk : k < l.length) : l.getD k 0 < size := by
  rw [List.getD_eq_get l 0 hk]
  exact h _ (List.get_mem l _ hk)

/-- Base-3 digits below the truncation point are unchanged by `% 3 ^ d`. -/
theorem digit_mod_pow (n d k : Nat) (hk : k < d) :
    n % 3 ^ d / 3 ^ k % 3 = n / 3 ^ k % 3 := by
  have hsplit : 3 ^ d = 3 ^ k * 3 ^ (d - k) := by
    rw [← pow_add]
    congr 1
    omega
  rw [hsplit, Nat.mod_mul_right_div_self]
  exact Nat.mod_mod_of_dvd _ (dvd_pow_self 3 (by omega))

/-- Two numbers below `3 ^ d` with equal base-3 digits are equal. -/
theorem digit_ext : ∀ (d n m : Nat), n < 3 ^ d → m < 3 ^ d →
    (∀ k, k < d → n / 3 ^ k % 3 = m / 3 ^ k % 3) → n = m := by
  intro d
  induction d with
  | zero =>
      intro n m hn hm _
      simp only [pow_zero] at hn hm
      omega
  | succ d ih =>
      intro n m hn hm hdig
      have h0 := hdig 0 (by omega)
      simp only [pow_zero, Nat.div_one] at h0
      have hq : n / 3 = m / 3 := by
        refine ih (n / 3) (m / 3) ?_ ?_ ?_
        · rw [Nat.div_lt_iff_lt_mul (by norm_num)]
          calc n < 3 ^ (d + 1) := hn
            _ = 3 ^ d * 3 := by rw [pow_succ]
        · rw [Nat.div_lt_iff_lt_mul (by norm_num)]
          calc m < 3 ^ (d + 1) := hm
            _ = 3 ^ d * 3 := by rw [pow_succ]
        · intro k hk
          have hdd : n / 3 / 3 ^ k = n / 3 ^ (k + 1) := by
            rw [Nat.div_div_eq_div_mul, pow_succ, Nat.mul_comm]
          have hdd' : m / 3 / 3 ^ k = m / 3 ^ (k + 1) := by
            rw [Nat.div_div_eq_div_mul, pow_succ, Nat.mul_comm]
          rw [hdd, hdd']
          exact hdig (k + 1) (by omega)
      have hn3 := Nat.div_add_mod n 3
      have hm3 := Nat.div_add_mod m 3
      omega

/-- The per-axis offset preserves the coordinate bound. -/
theorem offsetAxis_some_lt (size n_d c v : Nat)
    (h : offsetAxis size n_d c = some v) (hc : c < size) : v < size := by
  unfold offsetAxis at h
  split at h
  · split_ifs at h
    injection h with h
    omega
  · split_ifs at h with h1
    injection h with h
    omega
  · split_ifs at h with h1
    injection h with h
    omega

/-- On an interior coordinate the per-axis offset always succeeds, with the
shifted value determined by the digit (for `size ≤ 2 ^ 32` the `u32`
`checked_add` cannot fail below `size`). -/
theorem offsetAxis_interior_eq (size n_d c : Nat) (hs32 : size ≤ 2 ^ 32)
    (hc1 : 1 ≤ c) (hc2 : c + 1 < size) :
    offsetAxis size n_d c =
      some (match n_d with | 1 => c - 1 | 2 => c + 1 | _ => c) := by
  unfold offsetAxis
  split
  · rw [if_neg (by omega), if_neg (by omega)]
  · rw [if_neg (by omega), if_neg (by omega)]
  · rw [if_neg (by omega)]

/-- On an interior coordinate, distinct digits give distinct shifted
values. -/
theorem offsetAxis_inj_interior (size c e e' v v' : Nat) (hs32 : size ≤ 2 ^ 32)
    (hc1 : 1 ≤ c) (hc2 : c + 1 < size) (he : e < 3) (he' : e' < 3) (hne : e ≠ e')
    (h : offsetAxis size e c = some v) (h' : offsetAxis size e' c = some v') :
    v ≠ v' := by
  rw [offsetAxis_interior_eq size e c hs32 hc1 hc2] at h
  rw [offsetAxis_interior_eq size e' c hs32 hc1 hc2] at h'
  injection h with h
  injection h' with h'
  subst h
  subst h'
  interval_cases e <;> interval_cases e' <;> simp_all <;> omega

/-- The inner offset loop preserves the coordinate-vector length. -/
theorem applyOffsets_length (size : Nat) :
    ∀ (d n : Nat) (nc res : List Nat), applyOffsets size d n nc = some res →
      res.length = nc.length := by
  intro d
  induction d with
  | zero =>
      intro n nc res h
      injection h with h
      rw [← h]
  | succ d ih =>
      intro n nc res h
      simp only [applyOffsets] at h
      cases hoa : offsetAxis size (n / 3 ^ d) (nc.getD d 0) with
      | none => rw [hoa] at h; exact Option.noConfusion h
      | some v =>
          rw [hoa] at h
          have := ih _ _ _ h
          rw [this, List.length_set]

/-- Axes at or above the loop entry are never touched by the inner offset
loop. -/
theorem applyOffsets_getD_ge (size : Nat) :
    ∀ (d n : Nat) (nc res : List Nat), applyOffsets size d n nc = some res →
      ∀ k, d ≤ k → res.getD k 0 = nc.getD k 0 := by
  intro d
  induction d with
  | zero =>
      intro n nc res h k _
      injection h with h
      rw [← h]
  | succ d ih =>
      intro n nc res h k hk
      simp only [applyOffsets] at h
      cases hoa : offsetAxis size (n / 3 ^ d) (nc.getD d 0) with
      | none => rw [hoa] at h; exact Option.noConfusion h
      | some v =>
          rw [hoa] at h
          rw [ih _ _ _ h k (by omega), getD_set_ne _ _ _ _ _ (by omega)]

/-- Below the loop entry, each axis of the result is the per-axis offset of
the original coordinate by the candidate's base-3 digit on that axis. -/
theorem applyOffsets_getD_lt (size : Nat) :
    ∀ (d n : Nat) (nc res : List Nat), applyOffsets size d n nc = some res →
      n < 3 ^ d → d ≤ nc.length →
      ∀ k, k < d →
        offsetAxis size (n / 3 ^ k % 3) (nc.getD k 0) = some (res.getD k 0) := by
  intro d
  induction d with
  | zero => intro n nc res _ _ _ k hk; omega
  | succ d ih =>
      intro n nc res h hn hd k hk
      simp only [applyOffsets] at h
      cases hoa : offsetAxis size (n / 3 ^ d) (nc.getD d 0) with
      | none => rw [hoa] at h; exact Option.noConfusion h
      | some v =>
          rw [hoa] at h
          have hpow : 0 < 3 ^ d := pow_pos (by norm_num) d
          have hnd3 : n / 3 ^ d < 3 := by
            rw [Nat.div_lt_iff_lt_mul hpow]
            calc n < 3 ^ (d + 1) := hn
              _ = 3 ^ d * 3 := by rw [pow_succ]
              _ = 3 * 3 ^ d := by rw [Nat.mul_comm]
          rcases Nat.lt_or_ge k d with hkd | hkd
          · have hsub : n - n / 3 ^ d * 3 ^ d = n % 3 ^ d := sub_div_mul_eq_mod n _
            rw [hsub] at h
            have hrec := ih _ _ _ h (Nat.mod_lt n hpow)
              (by rw [List.length_set]; omega) k hkd
            rw [getD_set_ne _ _ _ _ _ (by omega)] at hrec
            rw [← digit_mod_pow n d k hkd]
            exact hrec
          · have hkd' : k = d := by omega
            subst hkd'
            have hdig : n / 3 ^ k % 3 = n / 3 ^ k := Nat.mod_eq_of_lt hnd3
            rw [hdig]
            have hres : res.getD k 0 = v := by
              rw [applyOffsets_getD_ge size _ _ _ _ h k (by omega),
                getD_set_eq _ _ _ _ (by omega)]
            rw [hres]
            exact hoa

/-- On a cell all of whose coordinates are interior, the inner offset loop
never breaks. -/
theorem applyOffsets_interior_isSome (size : Nat) (hs32 : size ≤ 2 ^ 32) :
    ∀ (d n : Nat) (nc : List Nat), d ≤ nc.length →
      (∀ k, k < d → 1 ≤ nc.getD k 0 ∧ nc.getD k 0 + 1 < size) →
      ∃ res, applyOffsets size d n nc = some res := by
  intro d
  induction d with
  | zero => intro n nc _ _; exact ⟨nc, rfl⟩
  | succ d ih =>
      intro n nc hd hint
      obtain ⟨hc1, hc2⟩ := hint d (by omega)
      simp only [applyOffsets]
      rw [offsetAxis_interior_eq size (n / 3 ^ d) (nc.getD d 0) hs32 hc1 hc2]
      refine ih _ _ ?_ ?_
      · rw [List.length_set]; omega
      · intro k hk
        rw [getD_set_ne _ _ _ _ _ (by omega)]
        exact hint k (by omega)

/-- The inner offset loop keeps every coordinate inside `[0, size)`. -/
theorem applyOffsets_bounded (size : Nat) :
    ∀ (d n : Nat) (nc res : List Nat), applyOffsets size d n nc = some res →
      (∀ k, k < nc.length → nc.getD k 0 < size) →
      ∀ k, k < res.length → res.getD k 0 < size := by
  intro d
  induction d with
  | zero =>
      intro n nc res h hb k hk
      injection h with h
      subst h
      exact hb k hk
  | succ d ih =>
      intro n nc res h hb k hk
      simp only [applyOffsets] at h
      cases hoa : offsetAxis size (n / 3 ^ d) (nc.getD d 0) with
      | none => rw [hoa] at h; exact Option.noConfusion h
      | some v =>
          rw [hoa] at h
          refine ih _ _ _ h ?_ k hk
          intro k' hk'
          rw [List.length_set] at hk'
          rcases eq_or_ne k' d with rfl | hne
          · rw [getD_set_eq _ _ _ _ hk']
            exact offsetAxis_some_lt size _ _ _ hoa (hb k' hk')
          · rw [getD_set_ne _ _ _ _ _ (Ne.symm hne)]
            exact hb k' hk'

/-- A candidate whose only shift is on a boundary axis makes the inner loop
break: digit 1 (move down) on an axis at 0, or digit 2 (move up) on an axis
at `size - 1`. -/
theorem applyOffsets_boundary_none (size : Nat) :
    ∀ (d a e : Nat) (nc : List Nat), a < d → 0 < size →
      (∀ k, k < nc.length → nc.getD k 0 < size) → a < nc.length →
      ((e = 1 ∧ nc.getD a 0 = 0) ∨ (e = 2 ∧ nc.getD a 0 + 1 = size)) →
      applyOffsets size d (e * 3 ^ a) nc = none := by
  intro d
  induction d with
  | zero => intro a e nc ha _ _ _ _; omega
  | succ d ih =>
      intro a e nc ha hsize hb hanc hcase
      have hpow : 0 < 3 ^ d := pow_pos (by norm_num) d
      simp only [applyOffsets]
      rcases Nat.lt_or_ge a d with had | had
      · have hlt : e * 3 ^ a < 3 ^ d := by
          have h1 : e * 3 ^ a < 3 * 3 ^ a := by
            have he3 : e < 3 := by omega
            exact (Nat.mul_lt_mul_right (pow_pos (by norm_num) a)).mpr he3
          have h2 : (3 : Nat) * 3 ^ a = 3 ^ (a + 1) := by
            rw [pow_succ, Nat.mul_comm]
          have h3 : (3 : Nat) ^ (a + 1) ≤ 3 ^ d :=
            Nat.pow_le_pow_right (by norm_num) (by omega)
          omega
        have hnd : e * 3 ^ a / 3 ^ d = 0 := Nat.div_eq_of_lt hlt
        rw [hnd]
        have hc : nc.getD d 0 ≠ size := by
          rcases Nat.lt_or_ge d nc.length with hdn | hdn
          · have := hb d hdn
            omega
          · rw [List.getD_eq_default _ _ hdn]
            omega
        show (match offsetAxis size 0 (nc.getD d 0) with
          | none => none
          | some v => applyOffsets size d (e * 3 ^ a - 0 * 3 ^ d) (nc.set d v)) = none
        rw [show offsetAxis size 0 (nc.getD d 0) = some (nc.getD d 0) by
          unfold offsetAxis
          rw [if_neg hc]]
        rw [Nat.zero_mul, Nat.sub_zero]
        refine ih a e _ had hsize ?_ ?_ ?_
        · intro k hk
          rw [List.length_set] at hk
          rcases eq_or_ne k d with rfl | hne
          · rw [getD_set_eq _ _ _ _ hk]
            exact hb k hk
          · rw [getD_set_ne _ _ _ _ _ (Ne.symm hne)]
            exact hb k hk
        · rw [List.length_set]; omega
        · rw [getD_set_ne _ _ _ _ _ (by omega)]
          exact hcase
      · have haeq : a = d := by omega
        subst haeq
        have hnd : e * 3 ^ a / 3 ^ a = e := Nat.mul_div_cancel e hpow
        rw [hnd]
        rcases hcase with ⟨rfl, hzero⟩ | ⟨rfl, hmax⟩
        · rw [show offsetAxis size 1 (nc.getD a 0) = none by
            unfold offsetAxis
            rw [if_pos hzero]]
        · rw [show offsetAxis size 2 (nc.getD a 0) = none by
            unfold offsetAxis
            rw [if_pos hmax]
            exact ite_self none]

/-- When every candidate in range succeeds, the outer loop emits one index
per candidate. -/
theorem neighborLoop_length_of_all_some (size dim : Nat) (coords : List Nat) :
    ∀ (rem n : Nat),
      (∀ m, n ≤ m → m < n + rem → ∃ res, applyOffsets size dim m coords = some res) →
      (neighborLoop size dim coords rem n).length = rem := by
  intro rem
  induction rem with
  | zero => intro n _; rfl
  | succ rem ih =>
      intro n h
      obtain ⟨res, hres⟩ := h n (Nat.le_refl n) (by omega)
      simp only [neighborLoop]
      rw [hres]
      simp only [List.length_cons]
      rw [ih (n + 1) (fun m hm1 hm2 => h m (by omega) (by omega))]

/-- Every emitted index comes from a successful candidate in range. -/
theorem neighborLoop_mem (size dim : Nat) (coords : List Nat) :
    ∀ (rem n j : Nat), j ∈ neighborLoop size dim coords rem n →
      ∃ m res, n ≤ m ∧ m < n + rem ∧ applyOffsets size dim m coords = some res ∧
        j = tagged_coords_to_index size dim res := by
  intro rem
  induction rem with
  | zero => intro n j hj; simp [neighborLoop] at hj
  | succ rem ih =>
      intro n j hj
      simp only [neighborLoop] at hj
      cases hoa : applyOffsets size dim n coords with
      | none => rw [hoa] at hj; simp at hj
      | some res =>
          rw [hoa] at hj
          rcases List.mem_cons.mp hj with rfl | hj'
          · exact ⟨n, res, Nat.le_refl n, by omega, hoa, rfl⟩
          · obtain ⟨m, res', hm1, hm2, hres', hj''⟩ := ih (n + 1) j hj'
            exact ⟨m, res', by omega, by omega, hres', hj''⟩

/-- When every candidate in range succeeds and distinct candidates encode to
distinct indices, the emitted list has no duplicates. -/
theorem neighborLoop_nodup (size dim : Nat) (coords : List Nat) :
    ∀ (rem n : Nat),
      (∀ m, n ≤ m → m < n + rem → ∃ res, applyOffsets size dim m coords = some res) →
      (∀ m m' res res', n ≤ m → m < n + rem → n ≤ m' → m' < n + rem → m ≠ m' →
        applyOffsets size dim m coords = some res →
        applyOffsets size dim m' coords = some res' →
        tagged_coords_to_index size dim res ≠ tagged_coords_to_index size dim res') →
      (neighborLoop size dim coords rem n).Nodup := by
  intro rem
  induction rem with
  | zero => intro n _ _; simp [neighborLoop]
  | succ rem ih =>
      intro n hsome hinj
      obtain ⟨res, hres⟩ := hsome n (Nat.le_refl n) (by omega)
      simp only [neighborLoop]
      rw [hres]
      rw [List.nodup_cons]
      constructor
      · intro hmem
        obtain ⟨m, res', hm1, hm2, hres', hj⟩ :=
          neighborLoop_mem size dim coords rem (n + 1) _ hmem
        exact hinj n m res res' (Nat.le_refl n) (by omega) (by omega) (by omega)
          (by omega) hres hres' hj
      · refine ih (n + 1) (fun m hm1 hm2 => hsome m (by omega) (by omega)) ?_
        intro m m' res1 res1' hm1 hm2 hm1' hm2' hne h1 h1'
        exact hinj m m' res1 res1' (by omega) (by omega) (by omega) (by omega)
          hne h1 h1'

/-- A failing candidate in range truncates the loop: strictly fewer indices
than candidates are emitted. -/
theorem neighborLoop_length_lt (size dim : Nat) (coords : List Nat) :
    ∀ (rem n m : Nat), n ≤ m → m < n + rem →
      applyOffsets size dim m coords = none →
      (neighborLoop size dim coords rem n).length < rem := by
  intro rem
  induction rem with
  | zero => intro n m h1 h2 _; omega
  | succ rem ih =>
      intro n m h1 h2 hnone
      simp only [neighborLoop]
      cases hoa : applyOffsets size dim n coords with
      | none => simp
      | some res =>
          have hmn : m ≠ n := by
            intro heq
            rw [heq, hoa] at hnone
            exact Option.noConfusion hnone
          simp only [List.length_cons]
          have := ih (n + 1) m (by omega) (by omega) hnone
          omega

/-- The flat encoding is injective on well-formed coordinate vectors, within
the machine widths (digits fit `u32`, encoded values fit `usize`). -/
theorem tagged_coords_to_index_inj (size dim : Nat) (hs32 : size ≤ 2 ^ 32)
    (hfits : size ^ dim ≤ 2 ^ 64 - 1) (cs cs' : List Nat)
    (h : cs.length = dim) (h' : cs'.length = dim)
    (hb : ∀ x ∈ cs, x < size) (hb' : ∀ x ∈ cs', x < size)
    (heq : tagged_coords_to_index size dim cs = tagged_coords_to_index size dim cs') :
    cs = cs' := by
  have htake : ∀ l : List Nat, l.length = dim → l.take dim = l := by
    intro l hl
    rw [← hl]
    exact List.take_length l
  have e1 : tagged_index_to_coords size dim (tagged_coords_to_index size dim cs) = cs := by
    have hv : ctiAux size 1 cs < size ^ dim := h ▸ ctiAux_one_lt size cs hb
    rw [tagged_coords_to_index, htake _ h,
      Nat.mod_eq_of_lt (by omega : ctiAux size 1 cs < 2 ^ 64)]
    exact tagged_index_to_coords_ctiAux size hs32 dim cs h hb
  have e2 : tagged_index_to_coords size dim (tagged_coords_to_index size dim cs') = cs' := by
    have hv : ctiAux size 1 cs' < size ^ dim := h' ▸ ctiAux_one_lt size cs' hb'
    rw [tagged_coords_to_index, htake _ h',
      Nat.mod_eq_of_lt (by omega : ctiAux size 1 cs' < 2 ^ 64)]
    exact tagged_index_to_coords_ctiAux size hs32 dim cs' h' hb'
  rw [heq] at e1
  rw [e1] at e2
  exact e2

/-- C6 counterexample: on the constructible 1-dimensional grid of size
`2 ^ 33` (its `2 ^ 33` cells fit in addressable memory and `3 ^ 1` fits
`u32`), the cell at index `2 ^ 32` is interior — its true coordinate
`2 ^ 32` is neither `0` nor `size - 1` — yet `get_neighbor_indices` returns
`[]` rather than `3 ^ 1 - 1 = 2` distinct indices: the `tmp_coord as u32`
cast truncates its stored coordinate to `0`, and the first candidate then
underflows and breaks the loop.  So the claim quantified over every
`size ≥ 1` is false of the code. -/
theorem C6_counterexample_u32_truncation :
    (new LifeRules.BasicRules 1 (2 ^ 33)).map
        (fun g => g.get_neighbor_indices (2 ^ 32)) = some [] ∧
    (2 ^ 32 : Nat) ≠ 0 ∧ (2 ^ 32 : Nat) ≠ 2 ^ 33 - 1 ∧
    (2 ^ 32 : Nat) < (2 ^ 33 : Nat) ^ 1 ∧
    ([] : List Nat).length ≠ 3 ^ 1 - 1 := by
  refine ⟨?_, ?_, ?_, ?_, ?_⟩ <;> decide

/-- C6 (amended): for every grid with `dim ≥ 1`, `size ≥ 1` and valid cell
index `i`, within the machine widths — coordinates fit the `u32` digit
storage (`size ≤ 2 ^ 32`) and the cell storage fits `usize`
(`size ^ dim ≤ 2 ^ 64 - 1`) — every index returned by
`get_neighbor_indices` lies in `[0, size ^ dim)`; when no coordinate of `i`
is `0` or `size - 1` (interior cell) the returned list has exactly
`3 ^ dim - 1` pairwise-distinct entries; and when some coordinate is `0` or
`size - 1` (boundary cell) it has strictly fewer.  The two bounds are
exactly what the truncation counterexample forces. -/
theorem C6_neighbor_count_bounds_within_machine_widths (sim : LifeSimulator)
    (i : Nat) (hd : 1 ≤ sim.dim) (hs : 1 ≤ sim.size)
    (hs32 : sim.size ≤ 2 ^ 32) (hfits : sim.size ^ sim.dim ≤ 2 ^ 64 - 1)
    (hi : i < sim.size ^ sim.dim) :
    (∀ j ∈ sim.get_neighbor_indices i, j < sim.size ^ sim.dim) ∧
    ((∀ k, k < sim.dim →
        (sim.index_to_coords i).getD k 0 ≠ 0 ∧
        (sim.index_to_coords i).getD k 0 ≠ sim.size - 1) →
      (sim.get_neighbor_indices i).length = 3 ^ sim.dim - 1 ∧
      (sim.get_neighbor_indices i).Nodup) ∧
    ((∃ k, k < sim.dim ∧
        ((sim.index_to_coords i).getD k 0 = 0 ∨
         (sim.index_to_coords i).getD k 0 = sim.size - 1)) →
      (sim.get_neighbor_indices i).length < 3 ^ sim.dim - 1) := by
  have hclen : (tagged_index_to_coords sim.size sim.dim i).length = sim.dim :=
    tagged_index_to_coords_length sim.size sim.dim i
  have hcmem : ∀ x ∈ tagged_index_to_coords sim.size sim.dim i, x < sim.size :=
    tagged_index_to_coords_mem_lt sim.size sim.dim i hi
  have hcball : ∀ k, k < (tagged_index_to_coords sim.size sim.dim i).length →
      (tagged_index_to_coords sim.size sim.dim i).getD k 0 < sim.size :=
    fun k hk => getD_lt_of_mem_lt _ _ _ hcmem hk
  have h3pos : 0 < 3 ^ sim.dim := pow_pos (by norm_num) sim.dim
  have htake : ∀ l : List Nat, l.length = sim.dim → l.take sim.dim = l := by
    intro l hl
    rw [← hl]
    exact List.take_length l
  have hgni : sim.get_neighbor_indices i =
      neighborLoop sim.size sim.dim (tagged_index_to_coords sim.size sim.dim i)
        (3 ^ sim.dim - 1) 1 := rfl
  have hidx : sim.index_to_coords i = tagged_index_to_coords sim.size sim.dim i := rfl
  refine ⟨?_, ?_, ?_⟩
  · -- every returned index is a valid flat index
    intro j hj
    rw [hgni] at hj
    obtain ⟨m, res, _, _, hres, rfl⟩ :=
      neighborLoop_mem sim.size sim.dim _ (3 ^ sim.dim - 1) 1 j hj
    have hreslen : res.length = sim.dim :=
      (applyOffsets_length sim.size sim.dim m _ res hres).trans hclen
    have hresb : ∀ k, k < res.length → res.getD k 0 < sim.size :=
      applyOffsets_bounded sim.size sim.dim m _ res hres hcball
    have hresmem : ∀ x ∈ res, x < sim.size := mem_lt_of_getD_lt res sim.size hresb
    rw [tagged_coords_to_index, htake res hreslen]
    have hlt := ctiAux_one_lt sim.size res hresmem
    rw [hreslen] at hlt
    have hmle := Nat.mod_le (ctiAux sim.size 1 res) (2 ^ 64)
    omega
  · -- interior cell: full, duplicate-free neighborhood
    intro hint
    rw [hidx] at hint
    have hinterior : ∀ k, k < sim.dim →
        1 ≤ (tagged_index_to_coords sim.size sim.dim i).getD k 0 ∧
        (tagged_index_to_coords sim.size sim.dim i).getD k 0 + 1 < sim.size := by
      intro k hk
      obtain ⟨hne0, hnem⟩ := hint k hk
      have hlt := hcball k (by omega)
      omega
    have hsome : ∀ m, 1 ≤ m → m < 1 + (3 ^ sim.dim - 1) →
        ∃ res, applyOffsets sim.size sim.dim m
          (tagged_index_to_coords sim.size sim.dim i) = some res := by
      intro m _ _
      exact applyOffsets_interior_isSome sim.size hs32 sim.dim m _ (by omega) hinterior
    constructor
    · rw [hgni]
      exact neighborLoop_length_of_all_some sim.size sim.dim _ (3 ^ sim.dim - 1) 1 hsome
    · rw [hgni]
      refine neighborLoop_nodup sim.size sim.dim _ (3 ^ sim.dim - 1) 1 hsome ?_
      intro m m' res res' hm1 hm2 hm1' hm2' hne hres hres'
      have hm3 : m < 3 ^ sim.dim := by omega
      have hm3' : m' < 3 ^ sim.dim := by omega
      have hreslen : res.length = sim.dim :=
        (applyOffsets_length sim.size sim.dim m _ res hres).trans hclen
      have hreslen' : res'.length = sim.dim :=
        (applyOffsets_length sim.size sim.dim m' _ res' hres').trans hclen
      have hresb : ∀ k, k < res.length → res.getD k 0 < sim.size :=
        applyOffsets_bounded sim.size sim.dim m _ res hres hcball
      have hresb' : ∀ k, k < res'.length → res'.getD k 0 < sim.size :=
        applyOffsets_bounded sim.size sim.dim m' _ res' hres' hcball
      intro hcti
      have heqres : res = res' :=
        tagged_coords_to_index_inj sim.size sim.dim hs32 hfits res res'
          hreslen hreslen'
          (mem_lt_of_getD_lt res sim.size hresb)
          (mem_lt_of_getD_lt res' sim.size hresb') hcti
      apply hne
      refine digit_ext sim.dim m m' hm3 hm3' ?_
      intro k hk
      by_contra hdig
      have h1 := applyOffsets_getD_lt sim.size sim.dim m _ res hres hm3
        (by omega) k hk
      have h2 := applyOffsets_getD_lt sim.size sim.dim m' _ res' hres' hm3'
        (by omega) k hk
      obtain ⟨hc1, hc2⟩ := hinterior k hk
      have hvne := offsetAxis_inj_interior sim.size
        ((tagged_index_to_coords sim.size sim.dim i).getD k 0)
        (m / 3 ^ k % 3) (m' / 3 ^ k % 3) (res.getD k 0) (res'.getD k 0)
        hs32 hc1 hc2 (Nat.mod_lt _ (by norm_num)) (Nat.mod_lt _ (by norm_num))
        hdig h1 h2
      rw [heqres] at hvne
      exact hvne rfl
  · -- boundary cell: the loop breaks at some candidate
    intro hbound
    rw [hidx] at hbound
    obtain ⟨k, hk, hcase⟩ := hbound
    have hk3pos : 0 < 3 ^ k := pow_pos (by norm_num) k
    have hstep : (3 : Nat) ^ (k + 1) ≤ 3 ^ sim.dim :=
      Nat.pow_le_pow_right (by norm_num) (by omega)
    have hsucc : (3 : Nat) ^ (k + 1) = 3 ^ k * 3 := pow_succ 3 k
    rw [hgni]
    rcases hcase with hzero | hmax
    · have hnone := applyOffsets_boundary_none sim.size sim.dim k 1 _ hk
        (by omega) hcball (by omega) (Or.inl ⟨rfl, hzero⟩)
      exact neighborLoop_length_lt sim.size sim.dim _ (3 ^ sim.dim - 1) 1
        (1 * 3 ^ k) (by omega) (by omega) hnone
    · have hmax' : (tagged_index_to_coords sim.size sim.dim i).getD k 0 + 1 =
          sim.size := by omega
      have hnone := applyOffsets_boundary_none sim.size sim.dim k 2 _ hk
        (by omega) hcball (by omega) (Or.inr ⟨rfl, hmax'⟩)
      exact neighborLoop_length_lt sim.size sim.dim _ (3 ^ sim.dim - 1) 1
        (2 * 3 ^ k) (by omega) (by omega) hnone

/-- C6 witness: the neighbor-count bounds applied to the interior center
cell (index 4) of the 2-dimensional size-3 grid. -/
theorem C6_neighbor_count_bounds_within_machine_widths_witness :
    1 ≤ exSim2.dim ∧ 1 ≤ exSim2.size ∧ exSim2.size ≤ 2 ^ 32 ∧
    exSim2.size ^ exSim2.dim ≤ 2 ^ 64 - 1 ∧ 4 < exSim2.size ^ exSim2.dim ∧
    ((∀ j ∈ exSim2.get_neighbor_indices 4, j < exSim2.size ^ exSim2.dim) ∧
     ((∀ k, k < exSim2.dim →
         (exSim2.index_to_coords 4).getD k 0 ≠ 0 ∧
         (exSim2.index_to_coords 4).getD k 0 ≠ exSim2.size - 1) →
       (exSim2.get_neighbor_indices 4).length = 3 ^ exSim2.dim - 1 ∧
       (exSim2.get_neighbor_indices 4).Nodup) ∧
     ((∃ k, k < exSim2.dim ∧
         ((exSim2.index_to_coords 4).getD k 0 = 0 ∨
          (exSim2.index_to_coords 4).getD k 0 = exSim2.size - 1)) →
       (exSim2.get_neighbor_indices 4).length < 3 ^ exSim2.dim - 1)) :=
  ⟨by decide, by decide, by decide, by decide, by decide,
   C6_neighbor_count_bounds_within_machine_widths exSim2 4 (by decide)
     (by decide) (by decide) (by decide) (by decide)⟩

end LifeND
